import Mathlib

/-!
Verification of the ssh-ssistant remote-connectivity core (src-tauri/src/ssh/).

Shallow embedding of the session-establishment, pooling, host-key
verification, transfer-resume and command-dispatch logic, with theorems
checking the natural-language specification against the code.

Conventions: machine loops that may spin forever (non-blocking retry
loops) are modelled with explicit fuel, returning `Option` where `none`
means the loop is still running; a Rust `panic!` / out-of-bounds index is
modelled as `none` of an `Option` result; I/O outcomes of external calls
are supplied as input sequences (`Nat → ...`) indexed by call number.
-/

/- ================================================================
   §1  ssh2_retry (src/src-tauri/src/ssh/utils.rs, lines 11-27)

   Rust: loop { match f() { Ok(v) => return Ok(v),
           Err(e) => if e.code() == ErrorCode::Session(-37)
                     { sleep(10ms); continue } else { return Err(e) } } }
   ================================================================ -/

/-- Error code of an `ssh2::Error`: `Session(n)` or an SFTP code. -/
inductive Ssh2ErrorCode where
  | session : Int → Ssh2ErrorCode
  | sftpCode : Int → Ssh2ErrorCode
deriving DecidableEq

/-- Model of `ssh2::Error` (only the code is inspected by the program). -/
structure Ssh2Error where
  code : Ssh2ErrorCode
deriving DecidableEq

/-- The would-block test used by `ssh2_retry`: `e.code() == ErrorCode::Session(-37)`. -/
def isWouldBlock (e : Ssh2Error) : Bool :=
  e.code == Ssh2ErrorCode.session (-37)

/-- A call result is a would-block error. -/
def wouldBlockRes {T : Type} : Except Ssh2Error T → Bool
  | Except.error e => isWouldBlock e
  | Except.ok _ => false

/-- Fuel-indexed model of the `ssh2_retry` loop body, starting at call
number `i`. `f n` is the outcome of the n-th invocation of the wrapped
closure. `none` means the fuel ran out while the loop was still retrying. -/
def ssh2RetryGo {T : Type} (f : Nat → Except Ssh2Error T) : Nat → Nat → Option (Except Ssh2Error T)
  | 0, _ => none
  | fuel + 1, i =>
    match f i with
    | Except.ok v => some (Except.ok v)
    | Except.error e =>
      if isWouldBlock e then ssh2RetryGo f fuel (i + 1) else some (Except.error e)

/-- `ssh2_retry` from utils.rs: run the loop from the first call. -/
def ssh2_retry {T : Type} (f : Nat → Except Ssh2Error T) (fuel : Nat) :
    Option (Except Ssh2Error T) :=
  ssh2RetryGo f fuel 0

lemma ssh2RetryGo_ok_iff {T : Type} (f : Nat → Except Ssh2Error T) :
    ∀ fuel i v, ssh2RetryGo f fuel i = some (Except.ok v) ↔
      ∃ n, i ≤ n ∧ n < i + fuel ∧ f n = Except.ok v ∧
        ∀ m, i ≤ m → m < n → wouldBlockRes (f m) = true := by
  intro fuel
  induction fuel with
  | zero =>
    intro i v
    simp only [ssh2RetryGo]
    constructor
    · intro h; exact absurd h (by simp)
    · rintro ⟨n, h1, h2, -⟩; omega
  | succ fuel ih =>
    intro i v
    simp only [ssh2RetryGo]
    cases hfi : f i with
    | ok w =>
      simp only [Option.some_inj]
      constructor
      · intro h
        refine ⟨i, le_refl i, by omega, ?_, fun m h1 h2 => by omega⟩
        rw [hfi]; exact h
      · rintro ⟨n, h1, h2, h3, h4⟩
        rcases Nat.eq_or_lt_of_le h1 with rfl | hlt
        · rw [hfi] at h3; exact h3.symm ▸ rfl
        · have := h4 i (le_refl i) hlt
          rw [hfi] at this
          simp [wouldBlockRes] at this
    | error e =>
      by_cases hwb : isWouldBlock e
      · simp only [hwb, if_true]
        rw [ih (i + 1) v]
        constructor
        · rintro ⟨n, h1, h2, h3, h4⟩
          refine ⟨n, by omega, by omega, h3, fun m hm1 hm2 => ?_⟩
          rcases Nat.eq_or_lt_of_le hm1 with rfl | hlt
          · rw [hfi]; simp [wouldBlockRes, hwb]
          · exact h4 m hlt hm2
        · rintro ⟨n, h1, h2, h3, h4⟩
          have hni : n ≠ i := by
            rintro rfl; rw [hfi] at h3; exact absurd h3 (by simp)
          exact ⟨n, by omega, by omega, h3, fun m hm1 hm2 => h4 m (by omega) hm2⟩
      · simp only [hwb, if_false, Option.some_inj]
        constructor
        · intro h; exact absurd h (by simp)
        · rintro ⟨n, h1, h2, h3, h4⟩
          have hni : n ≠ i := by
            rintro rfl; rw [hfi] at h3; exact absurd h3 (by simp)
          have := h4 i (le_refl i) (by omega)
          rw [hfi] at this
          simp [wouldBlockRes, hwb] at this

lemma ssh2RetryGo_error_iff {T : Type} (f : Nat → Except Ssh2Error T) :
    ∀ fuel i e, ssh2RetryGo f fuel i = some (Except.error e) ↔
      isWouldBlock e = false ∧ ∃ n, i ≤ n ∧ n < i + fuel ∧ f n = Except.error e ∧
        ∀ m, i ≤ m → m < n → wouldBlockRes (f m) = true := by
  intro fuel
  induction fuel with
  | zero =>
    intro i e
    simp only [ssh2RetryGo]
    constructor
    · intro h; exact absurd h (by simp)
    · rintro ⟨-, n, h1, h2, -⟩; omega
  | succ fuel ih =>
    intro i e
    simp only [ssh2RetryGo]
    cases hfi : f i with
    | ok w =>
      simp only [Option.some_inj]
      constructor
      · intro h; exact absurd h (by simp)
      · rintro ⟨hnwb, n, h1, h2, h3, h4⟩
        have hni : n ≠ i := by
          rintro rfl; rw [hfi] at h3; exact absurd h3 (by simp)
        have := h4 i (le_refl i) (by omega)
        rw [hfi] at this
        simp [wouldBlockRes] at this
    | error e' =>
      by_cases hwb : isWouldBlock e'
      · simp only [hwb, if_true]
        rw [ih (i + 1) e]
        constructor
        · rintro ⟨hnwb, n, h1, h2, h3, h4⟩
          refine ⟨hnwb, n, by omega, by omega, h3, fun m hm1 hm2 => ?_⟩
          rcases Nat.eq_or_lt_of_le hm1 with rfl | hlt
          · rw [hfi]; simp [wouldBlockRes, hwb]
          · exact h4 m hlt hm2
        · rintro ⟨hnwb, n, h1, h2, h3, h4⟩
          have hni : n ≠ i := by
            rintro rfl
            rw [hfi] at h3
            have : e' = e := by simpa using h3
            rw [this] at hwb
            simp [hwb] at hnwb
          exact ⟨hnwb, n, by omega, by omega, h3, fun m hm1 hm2 => h4 m (by omega) hm2⟩
      · simp only [hwb, if_false, Option.some_inj]
        constructor
        · intro h
          have he : e' = e := by simpa using h
          subst he
          refine ⟨by simpa using hwb, i, le_refl i, by omega, hfi,
            fun m h1 h2 => by omega⟩
        · rintro ⟨hnwb, n, h1, h2, h3, h4⟩
          rcases Nat.eq_or_lt_of_le h1 with rfl | hlt
          · rw [hfi] at h3
            have he : e' = e := by simpa using h3
            subst he
            simp [hwb]
          · have := h4 i (le_refl i) hlt
            rw [hfi] at this
            simp [wouldBlockRes, hwb] at this

/-- C7: for every wrapped transport call, `ssh2_retry` returns `Ok v`
exactly when the underlying call sequence eventually (within fuel)
returns `Ok v` after only would-block errors; it surfaces `Err e`
exactly when `e` is the first non-would-block outcome and `e` itself is
not a would-block error — so a would-block error is never surfaced, and
any other error propagates at its first occurrence. -/
theorem ssh2_retry_spec {T : Type} (f : Nat → Except Ssh2Error T) (fuel : Nat) :
    (∀ v, ssh2_retry f fuel = some (Except.ok v) ↔
      ∃ n, n < fuel ∧ f n = Except.ok v ∧ ∀ m, m < n → wouldBlockRes (f m) = true)
    ∧ (∀ e, ssh2_retry f fuel = some (Except.error e) ↔
      isWouldBlock e = false ∧ ∃ n, n < fuel ∧ f n = Except.error e ∧
        ∀ m, m < n → wouldBlockRes (f m) = true) := by
  constructor
  · intro v
    rw [ssh2_retry, ssh2RetryGo_ok_iff]
    constructor
    · rintro ⟨n, -, h2, h3, h4⟩
      exact ⟨n, by omega, h3, fun m hm => h4 m (by omega) hm⟩
    · rintro ⟨n, h1, h2, h3⟩
      exact ⟨n, by omega, by omega, h2, fun m _ hm => h3 m hm⟩
  · intro e
    rw [ssh2_retry, ssh2RetryGo_error_iff]
    constructor
    · rintro ⟨hnwb, n, -, h2, h3, h4⟩
      exact ⟨hnwb, n, by omega, h3, fun m hm => h4 m (by omega) hm⟩
    · rintro ⟨hnwb, n, h1, h2, h3⟩
      exact ⟨hnwb, n, by omega, by omega, h2, fun m _ hm => h3 m hm⟩

/-- A concrete call sequence: one would-block error, then success. -/
def c7Calls : Nat → Except Ssh2Error Nat := fun n =>
  if n = 0 then Except.error ⟨Ssh2ErrorCode.session (-37)⟩ else Except.ok 42

theorem ssh2_retry_spec_witness : ssh2_retry c7Calls 2 = some (Except.ok 42) :=
  ((ssh2_retry_spec c7Calls 2).1 42).mpr
    ⟨1, by omega, rfl, fun m hm => by
      have : m = 0 := by omega
      subst this; rfl⟩

/- ================================================================
   §2  establish_connection_with_retry
       (src/src-tauri/src/ssh/connection.rs, lines 300-318)

   Rust: for attempt in 1..=CONNECTION_RETRY_MAX_ATTEMPTS {
           match establish_connection_internal(config) {
             Ok(s) => return Ok(s),
             Err(e) => { if attempt == MAX { return Err(format!(
                           "Failed ... after {} attempts: {}", MAX, e)) }
                         let delay = BASE * 2^(attempt-1); sleep(delay) } } }
         unreachable!()

   The stages of establish_connection_internal can fail with distinct
   error kinds (socket connect, handshake, host-key, auth); the retry
   loop above never inspects the kind.  `f n` is the outcome of the
   (n+1)-th attempt.  The model also records the sequence of backoff
   delays slept, in milliseconds.
   ================================================================ -/

/-- Error kinds produced by the stages of `establish_connection_internal`. -/
inductive ConnError where
  | connectFailed
  | jumpFailed
  | handshakeFailed
  | hostKeyMismatch
  | authFailed
  | otherFailed
deriving DecidableEq

def CONNECTION_RETRY_MAX_ATTEMPTS : Nat := 3

/-- Base backoff delay in milliseconds (`Duration::from_millis(1000)`). -/
def CONNECTION_RETRY_BASE_DELAY : Nat := 1000

/-- The retry loop with `left` attempts remaining, `i` attempts already
made.  Fuel 0 models the `unreachable!()` after the loop. -/
def estGo {T : Type} (f : Nat → Except ConnError T) :
    Nat → Nat → Except (Nat × ConnError) T × List Nat
  | _, 0 => (Except.error (CONNECTION_RETRY_MAX_ATTEMPTS, ConnError.otherFailed), [])
  | i, left + 1 =>
    match f i with
    | Except.ok v => (Except.ok v, [])
    | Except.error e =>
      if left = 0 then (Except.error (CONNECTION_RETRY_MAX_ATTEMPTS, e), [])
      else
        let rest := estGo f (i + 1) left
        (rest.1, CONNECTION_RETRY_BASE_DELAY * 2 ^ i :: rest.2)

/-- `establish_connection_with_retry`: first component is the final
result (error case carries the attempt count and the last error), second
the backoff delays slept between attempts. -/
def establish_connection_with_retry {T : Type} (f : Nat → Except ConnError T) :
    Except (Nat × ConnError) T × List Nat :=
  estGo f 0 CONNECTION_RETRY_MAX_ATTEMPTS

/-- Attempt outcomes refuting C1: the first attempt fails with a
handshake error, the second succeeds. -/
def c1CexAttempts : Nat → Except ConnError Unit := fun n =>
  if n = 0 then Except.error ConnError.handshakeFailed else Except.ok ()

/-- C1 counterexample: the claim says a handshake error is surfaced
immediately without further attempts.  In the code the retry loop never
inspects the error kind: after a handshake failure on attempt 1 it
sleeps the base delay and makes attempt 2, which here succeeds — so the
call returns `Ok`, not the handshake error. -/
theorem establish_retry_retries_handshake_error :
    c1CexAttempts 0 = Except.error ConnError.handshakeFailed
    ∧ (establish_connection_with_retry c1CexAttempts).1 = Except.ok ()
    ∧ (establish_connection_with_retry c1CexAttempts).2 = [1000] := by
  refine ⟨rfl, rfl, rfl⟩

/-- C1 amended: every establishment failure — socket, handshake,
host-key or authentication alike — is retried, up to 3 independent
attempts with exponential backoff (base delay 1000ms × 2^(attempt-1));
the error is surfaced only after the third failed attempt, wrapped with
the attempt count and carrying the last attempt's error. -/
theorem establish_retry_amended {T : Type} (f : Nat → Except ConnError T) :
    (∀ v, f 0 = Except.ok v →
      establish_connection_with_retry f = (Except.ok v, []))
    ∧ (∀ e0 v, f 0 = Except.error e0 → f 1 = Except.ok v →
      establish_connection_with_retry f = (Except.ok v, [1000]))
    ∧ (∀ e0 e1 v, f 0 = Except.error e0 → f 1 = Except.error e1 → f 2 = Except.ok v →
      establish_connection_with_retry f = (Except.ok v, [1000, 2000]))
    ∧ (∀ e0 e1 e2, f 0 = Except.error e0 → f 1 = Except.error e1 → f 2 = Except.error e2 →
      establish_connection_with_retry f = (Except.error (3, e2), [1000, 2000])) := by
  refine ⟨?_, ?_, ?_, ?_⟩
  · intro v h0
    simp [establish_connection_with_retry, CONNECTION_RETRY_MAX_ATTEMPTS, estGo, h0]
  · intro e0 v h0 h1
    simp [establish_connection_with_retry, CONNECTION_RETRY_MAX_ATTEMPTS, estGo, h0, h1,
      CONNECTION_RETRY_BASE_DELAY]
  · intro e0 e1 v h0 h1 h2
    simp [establish_connection_with_retry, CONNECTION_RETRY_MAX_ATTEMPTS, estGo, h0, h1, h2,
      CONNECTION_RETRY_BASE_DELAY]
  · intro e0 e1 e2 h0 h1 h2
    simp [establish_connection_with_retry, CONNECTION_RETRY_MAX_ATTEMPTS, estGo, h0, h1, h2,
      CONNECTION_RETRY_BASE_DELAY]

/-- Attempt outcomes where the first two attempts fail. -/
def c1WitAttempts : Nat → Except ConnError Nat := fun n =>
  if n ≤ 1 then Except.error ConnError.connectFailed else Except.ok 7

theorem establish_retry_amended_witness :
    establish_connection_with_retry c1WitAttempts = (Except.ok 7, [1000, 2000]) :=
  (establish_retry_amended c1WitAttempts).2.2.1 ConnError.connectFailed
    ConnError.connectFailed 7 rfl rfl rfl

/- ================================================================
   §3  verify_host_key (src/src-tauri/src/ssh/connection.rs, 604-680)

   Rust: match known_hosts.check_port(host, port, key) {
           CheckResult::Match => Ok(()),
           CheckResult::NotFound => { known_hosts.add(host, key, "", ..);
                                      known_hosts.write_file(..); Ok(()) }
           CheckResult::Mismatch => Err("Host key verification failed! ..."),
           CheckResult::Failure => Err("... internal error") }

   The trust store is the known_hosts file, a list of
   (host, port, key) entries.  `check_port` and `add` are external
   libssh2 primitives modelled by their documented contract: check
   reports Match when an entry for this host and port carries the same
   key, Mismatch when an entry for this host and port carries a
   different key, NotFound otherwise; add appends one entry.
   ================================================================ -/

/-- One line of the known_hosts trust store. -/
structure KnownHostEntry where
  host : String
  port : Nat
  key : String
deriving DecidableEq

/-- Result of the libssh2 known-hosts check. -/
inductive CheckResult where
  | keyMatch
  | notFound
  | keyMismatch
deriving DecidableEq

/-- Modelled contract of `known_hosts.check_port(host, port, key)`. -/
def check_port (store : List KnownHostEntry) (host : String) (port : Nat)
    (key : String) : CheckResult :=
  if store.any fun e => e.host == host && e.port == port && e.key == key then
    CheckResult.keyMatch
  else if store.any fun e => e.host == host && e.port == port then
    CheckResult.keyMismatch
  else
    CheckResult.notFound

/-- `verify_host_key`: returns the verification result together with the
trust store as left on disk afterwards.  On Match the store is untouched;
on NotFound the entry is appended (add + write_file); on Mismatch an
error is returned and nothing is written.  The error propagates out of
`establish_connection_internal` via `?`, refusing the connection. -/
def verify_host_key (store : List KnownHostEntry) (host : String) (port : Nat)
    (key : String) : Except String Unit × List KnownHostEntry :=
  match check_port store host port key with
  | CheckResult.keyMatch => (Except.ok (), store)
  | CheckResult.notFound => (Except.ok (), store ++ [⟨host, port, key⟩])
  | CheckResult.keyMismatch =>
    (Except.error "Host key verification failed! The remote host identification has changed.",
     store)

/-- C2: trust-on-first-use behaviour of host-key verification.
For a host absent from the trust store, verification succeeds and writes
exactly one new entry (the presented key, appended).  For a host whose
stored key equals the presented key, verification succeeds and writes
nothing.  For a host whose stored key differs, verification fails — the
connection is refused — and the store is not mutated. -/
theorem verify_host_key_tofu (store : List KnownHostEntry) (h : String)
    (p : Nat) (k : String) :
    ((∀ e ∈ store, ¬(e.host = h ∧ e.port = p)) →
      (verify_host_key store h p k).1 = Except.ok ()
      ∧ (verify_host_key store h p k).2 = store ++ [⟨h, p, k⟩]
      ∧ (verify_host_key store h p k).2.length = store.length + 1)
    ∧ ((⟨h, p, k⟩ : KnownHostEntry) ∈ store →
      (verify_host_key store h p k).1 = Except.ok ()
      ∧ (verify_host_key store h p k).2 = store)
    ∧ ((∃ e ∈ store, e.host = h ∧ e.port = p) →
      (∀ e ∈ store, e.host = h → e.port = p → e.key ≠ k) →
      (∃ msg, (verify_host_key store h p k).1 = Except.error msg)
      ∧ (verify_host_key store h p k).2 = store) := by
  refine ⟨?_, ?_, ?_⟩
  · intro habs
    have h1 : (store.any fun e => e.host == h && e.port == p && e.key == k) = false := by
      rw [List.any_eq_false]
      intro e he
      have := habs e he
      simp only [Bool.and_eq_true, beq_iff_eq]
      tauto
    have h2 : (store.any fun e => e.host == h && e.port == p) = false := by
      rw [List.any_eq_false]
      intro e he
      have := habs e he
      simp only [Bool.and_eq_true, beq_iff_eq]
      tauto
    simp [verify_host_key, check_port, h1, h2]
  · intro hmem
    have h1 : (store.any fun e => e.host == h && e.port == p && e.key == k) = true := by
      rw [List.any_eq_true]
      exact ⟨⟨h, p, k⟩, hmem, by simp⟩
    simp [verify_host_key, check_port, h1]
  · intro hex hdiff
    have h1 : (store.any fun e => e.host == h && e.port == p && e.key == k) = false := by
      rw [List.any_eq_false]
      intro e he
      simp only [Bool.and_eq_true, beq_iff_eq, not_and]
      intro hph
      exact hdiff e he hph.1 hph.2
    have h2 : (store.any fun e => e.host == h && e.port == p) = true := by
      rw [List.any_eq_true]
      obtain ⟨e, he, hh, hp⟩ := hex
      exact ⟨e, he, by simp [hh, hp]⟩
    constructor
    · exact ⟨"Host key verification failed! The remote host identification has changed.",
        by simp [verify_host_key, check_port, h1, h2]⟩
    · simp [verify_host_key, check_port, h1, h2]

/-- A concrete one-entry trust store. -/
def c2Store : List KnownHostEntry := [⟨"alpha.example", 22, "AAAAkey1"⟩]

theorem verify_host_key_tofu_witness :
    ((verify_host_key c2Store "beta.example" 22 "AAAAkey2").2.length = c2Store.length + 1
    ∧ (verify_host_key c2Store "alpha.example" 22 "AAAAkey1").2 = c2Store)
    ∧ (verify_host_key c2Store "alpha.example" 22 "AAAAkey9").2 = c2Store := by
  refine ⟨⟨?_, ?_⟩, ?_⟩
  · exact ((verify_host_key_tofu c2Store "beta.example" 22 "AAAAkey2").1
      (by decide)).2.2
  · exact ((verify_host_key_tofu c2Store "alpha.example" 22 "AAAAkey1").2.1
      (by decide)).2
  · exact ((verify_host_key_tofu c2Store "alpha.example" 22 "AAAAkey9").2.2
      ⟨⟨"alpha.example", 22, "AAAAkey1"⟩, by decide, by decide⟩
      (by decide)).2

/- ================================================================
   §4  SessionSshPool (src/src-tauri/src/ssh/connection.rs, 72-169)

   get_background_session (106-137):
     1. try_lock each pooled session; return the first uncontended one;
     2. else if len < max_background_sessions, sleep 100ms (stagger,
        when the list is non-empty), establish a new session, push it,
        return it;
     3. else round-robin: idx = next % len, return sessions[idx],
        next = (next+1) % len.  With len = 0 this evaluates `% 0` and
        indexes an empty Vec — a panic, modelled as `none`.

   cleanup_disconnected (140-169): retain sessions whose keepalive probe
   succeeds; if the list became empty, establish one replacement — but
   only if establish_connection_with_retry succeeds.

   A session is `busy` when some worker currently holds its Mutex, so
   `try_lock` fails exactly on busy sessions.  Newly established
   sessions get fresh ids from a counter.
   ================================================================ -/

/-- One pooled background session: its identity and whether its Mutex is
currently held by a worker. -/
structure BgSession where
  id : Nat
  busy : Bool
deriving DecidableEq

/-- The background half of a `SessionSshPool`. -/
structure PoolState where
  sessions : List BgSession
  maxBg : Nat
  nextIdx : Nat
  nextId : Nat
deriving DecidableEq

/-- `get_background_session`.  Returns the id of the session handed out
and the pool state afterwards; `none` models the Rust panic of
`sessions[*index % sessions.len()]` on an empty list. -/
def get_background_session (st : PoolState) : Option (Nat × PoolState) :=
  match st.sessions.find? fun s => !s.busy with
  | some s => some (s.id, st)
  | none =>
    if st.sessions.length < st.maxBg then
      some (st.nextId,
        { st with sessions := st.sessions ++ [⟨st.nextId, false⟩],
                  nextId := st.nextId + 1 })
    else if st.sessions.isEmpty then
      none
    else
      let len := st.sessions.length
      let i := st.nextIdx % len
      some ((st.sessions.getD i ⟨0, false⟩).id,
        { st with nextIdx := (st.nextIdx + 1) % len })

/-- The caller of `get_background_session` locks the returned handle:
the session with that id becomes busy. -/
def markBusy (i : Nat) (st : PoolState) : PoolState :=
  { st with sessions := st.sessions.map fun s =>
      if s.id = i then { s with busy := true } else s }

/-- `cleanup_disconnected` on the background list: `alive i` is the
outcome of the keepalive probe of session `i`, `est` the outcome of
`establish_connection_with_retry` (`none` = all 3 attempts failed),
giving the replacement session id on success. -/
def cleanup_disconnected (alive : Nat → Bool) (est : Option Nat)
    (st : PoolState) : PoolState :=
  let kept := st.sessions.filter fun s => alive s.id
  if kept.isEmpty then
    match est with
    | some nid => { st with sessions := [⟨nid, false⟩] }
    | none => { st with sessions := [] }
  else
    { st with sessions := kept }

/-- C4: the pool never grows beyond `max_background_sessions`: whenever
`get_background_session` returns, the list is still within capacity, it
grew only if it was strictly below capacity, and at capacity the list is
unchanged and the session handed out is an existing one. -/
theorem get_background_session_capacity (st : PoolState) (sid : Nat)
    (st' : PoolState) (hcap : st.sessions.length ≤ st.maxBg)
    (hcall : get_background_session st = some (sid, st')) :
    st'.sessions.length ≤ st.maxBg
    ∧ (st'.sessions.length ≠ st.sessions.length →
        st.sessions.length < st.maxBg)
    ∧ (st.sessions.length = st.maxBg →
        st'.sessions = st.sessions ∧ sid ∈ st.sessions.map BgSession.id) := by
  unfold get_background_session at hcall
  cases hfind : st.sessions.find? fun s => !s.busy with
  | some s =>
    rw [hfind] at hcall
    simp only [Option.some_inj, Prod.mk.injEq] at hcall
    obtain ⟨rfl, rfl⟩ := hcall
    refine ⟨hcap, by simp, fun _ => ⟨rfl, ?_⟩⟩
    exact List.mem_map_of_mem BgSession.id (List.mem_of_find?_eq_some hfind)
  | none =>
    rw [hfind] at hcall
    by_cases hlt : st.sessions.length < st.maxBg
    · simp only [hlt, if_true, Option.some_inj, Prod.mk.injEq] at hcall
      obtain ⟨rfl, rfl⟩ := hcall
      refine ⟨by simp; omega, fun _ => hlt, fun hc => absurd hc (by omega)⟩
    · simp only [hlt, if_false] at hcall
      cases hemp : st.sessions.isEmpty with
      | true => rw [hemp] at hcall; exact absurd hcall (by simp)
      | false =>
        rw [hemp] at hcall
        simp only [Bool.false_eq_true, if_false, Option.some_inj, Prod.mk.injEq] at hcall
        obtain ⟨rfl, rfl⟩ := hcall
        have hne : st.sessions ≠ [] := by
          intro h; rw [h] at hemp; simp at hemp
        have hlen : 0 < st.sessions.length := List.length_pos.mpr hne
        have hidx : st.nextIdx % st.sessions.length < st.sessions.length :=
          Nat.mod_lt _ hlen
        refine ⟨hcap, by simp, fun _ => ⟨rfl, ?_⟩⟩
        rw [List.getD_eq_getElem _ _ hidx]
        exact List.mem_map_of_mem BgSession.id (List.getElem_mem hidx)

/-- A pool at capacity 2 with both sessions busy, and its state after a
round-robin call. -/
def c4PoolAtCap : PoolState := ⟨[⟨1, true⟩, ⟨2, true⟩], 2, 0, 3⟩

def c4PoolAfter : PoolState := ⟨[⟨1, true⟩, ⟨2, true⟩], 2, 1, 3⟩

theorem get_background_session_capacity_witness :
    (1 : Nat) ∈ c4PoolAtCap.sessions.map BgSession.id
    ∧ c4PoolAfter.sessions = c4PoolAtCap.sessions := by
  have h := get_background_session_capacity c4PoolAtCap 1 c4PoolAfter
    (by decide) (by decide)
  exact ⟨(h.2.2 rfl).2, (h.2.2 rfl).1⟩

/-- C10: `get_background_session` panics (reaches `sessions[next % 0]`
on an empty Vec, modelled as `none`) exactly when the background list is
empty and `max_background_sessions` is 0.  In particular for a pool
constructed with capacity ≥ 1 the round-robin index is always in bounds
and the call never panics, and for capacity 0 the first call (empty
list) panics instead of returning an error. -/
theorem get_background_session_panic (st : PoolState) :
    (get_background_session st = none ↔ st.sessions = [] ∧ st.maxBg = 0)
    ∧ (1 ≤ st.maxBg → get_background_session st ≠ none) := by
  constructor
  · constructor
    · intro h
      unfold get_background_session at h
      cases hfind : st.sessions.find? fun s => !s.busy with
      | some s => rw [hfind] at h; exact absurd h (by simp)
      | none =>
        rw [hfind] at h
        by_cases hlt : st.sessions.length < st.maxBg
        · simp only [hlt, if_true] at h; exact absurd h (by simp)
        · simp only [hlt, if_false] at h
          cases hemp : st.sessions.isEmpty with
          | false => rw [hemp] at h; exact absurd h (by simp)
          | true =>
            have hnil : st.sessions = [] := List.isEmpty_iff.mp hemp
            refine ⟨hnil, ?_⟩
            rw [hnil] at hlt
            simpa using hlt
    · rintro ⟨hnil, hmax⟩
      unfold get_background_session
      rw [hnil, hmax]
      simp
  · intro hmax h
    unfold get_background_session at h
    cases hfind : st.sessions.find? fun s => !s.busy with
    | some s => rw [hfind] at h; exact absurd h (by simp)
    | none =>
      rw [hfind] at h
      by_cases hlt : st.sessions.length < st.maxBg
      · simp only [hlt, if_true] at h; exact absurd h (by simp)
      · simp only [hlt, if_false] at h
        cases hemp : st.sessions.isEmpty with
        | false => rw [hemp] at h; exact absurd h (by simp)
        | true =>
          have hnil : st.sessions = [] := List.isEmpty_iff.mp hemp
          rw [hnil] at hlt
          simp at hlt
          omega

/-- A pool just constructed with capacity 0. -/
def c10PoolZero : PoolState := ⟨[], 0, 0, 1⟩

/-- A pool just constructed with capacity 3. -/
def c10PoolThree : PoolState := ⟨[], 3, 0, 1⟩

theorem get_background_session_panic_witness :
    get_background_session c10PoolZero = none
    ∧ get_background_session c10PoolThree ≠ none := by
  refine ⟨?_, ?_⟩
  · exact (get_background_session_panic c10PoolZero).1.mpr ⟨rfl, rfl⟩
  · exact (get_background_session_panic c10PoolThree).2 (by decide)

/- ================================================================
   §5  C6 acquisition-order scenario
   ================================================================ -/

/-- One `get_background_session` call whose returned handle the caller
keeps locked. -/
def scenarioStep (st : PoolState) : Option (Nat × PoolState) :=
  match get_background_session st with
  | some (sid, st') => some (sid, markBusy sid st')
  | none => none

/-- Fresh pool of capacity 2 (`SessionSshPool::new` starts with an empty
background list). -/
def c6Pool : PoolState := ⟨[], 2, 0, 1⟩

/-- The three sequential calls of the C6 scenario: the first two handles
stay held, the third call runs while both are busy. -/
def c6Run : Option (Nat × Nat × Nat) :=
  match scenarioStep c6Pool with
  | some (a, st1) =>
    match scenarioStep st1 with
    | some (b, st2) =>
      match get_background_session st2 with
      | some (c, _) => some (a, b, c)
      | none => none
    | none => none
  | none => none

/-- A pool whose second session is currently uncontended. -/
def c6FreePool : PoolState := ⟨[⟨5, true⟩, ⟨7, false⟩, ⟨9, false⟩], 3, 0, 10⟩

/-- C6: acquisition order of `get_background_session`.  With capacity 2,
three sequential calls while the first two handles are still locked
yield two distinct newly established sessions #1 and #2 and then —
at capacity, all busy — round-robin reuse of session #1.  And when some
pooled session is uncontended, the first such session is returned
directly with no new establishment and no state change. -/
theorem get_background_session_order :
    c6Run = some (1, 2, 1)
    ∧ get_background_session c6FreePool = some (7, c6FreePool) := by
  exact ⟨by decide, by decide⟩

/-- C5 counterexample: a pool with one dead background session, in a
situation where re-establishment fails (all 3 connection attempts fail).
`cleanup_disconnected` evicts the dead session and leaves the pool with
zero background sessions, contradicting the claim that at least one
background session exists after `cleanup()` returns. -/
def c5DeadPool : PoolState := ⟨[⟨1, false⟩], 3, 0, 2⟩

theorem cleanup_can_leave_pool_empty :
    (cleanup_disconnected (fun _ => false) none c5DeadPool).sessions = [] := by
  decide

/-- C5 amended: `cleanup_disconnected` probes each background session
and evicts the dead ones; if the list became empty a replacement is
established, so at least one background session exists afterwards
provided some session survived the probe or re-establishment succeeded —
when every session is dead and re-establishment also fails, the pool is
left empty (to be regrown lazily by the next `get_background_session`).
Every session present afterwards is either a surviving live session or
the fresh replacement. -/
theorem cleanup_disconnected_amended (alive : Nat → Bool) (est : Option Nat)
    (st : PoolState) :
    (((∃ s ∈ st.sessions, alive s.id = true) ∨ est.isSome = true) →
      (cleanup_disconnected alive est st).sessions ≠ [])
    ∧ (∀ s ∈ (cleanup_disconnected alive est st).sessions,
        (s ∈ st.sessions ∧ alive s.id = true) ∨ ∃ nid, est = some nid ∧ s = ⟨nid, false⟩) := by
  constructor
  · intro hsome
    simp only [cleanup_disconnected]
    cases hemp : (st.sessions.filter fun s => alive s.id).isEmpty with
    | false =>
      simp only [hemp, Bool.false_eq_true, if_false]
      intro h
      have hnil : (st.sessions.filter fun s => alive s.id) = [] := h
      rw [hnil] at hemp
      simp at hemp
    | true =>
      have hnil : (st.sessions.filter fun s => alive s.id) = [] :=
        List.isEmpty_iff.mp hemp
      rcases hsome with ⟨s, hs, hal⟩ | hest
      · exact absurd (List.mem_filter.mpr ⟨hs, hal⟩) (by rw [hnil]; simp)
      · cases est with
        | none => simp at hest
        | some nid =>
          simp only [hemp, if_true]
          intro h
          have h2 : ([⟨nid, false⟩] : List BgSession) = [] := h
          simp at h2
  · intro s hs
    simp only [cleanup_disconnected] at hs
    cases hemp : (st.sessions.filter fun u => alive u.id).isEmpty with
    | false =>
      rw [hemp] at hs
      simp only [Bool.false_eq_true, if_false] at hs
      have hs2 : s ∈ st.sessions.filter fun u => alive u.id := hs
      have := List.mem_filter.mp hs2
      exact Or.inl ⟨this.1, this.2⟩
    | true =>
      rw [hemp] at hs
      cases est with
      | none => simp at hs
      | some nid =>
        simp at hs
        exact Or.inr ⟨nid, rfl, hs⟩

/-- One live session, one dead session, establishment not needed. -/
def c5MixedPool : PoolState := ⟨[⟨1, false⟩, ⟨2, false⟩], 3, 0, 3⟩

theorem cleanup_disconnected_amended_witness :
    (cleanup_disconnected (fun i => i == 1) none c5MixedPool).sessions ≠ [] :=
  (cleanup_disconnected_amended (fun i => i == 1) none c5MixedPool).1
    (Or.inl ⟨⟨1, false⟩, by decide, by decide⟩)

/- ================================================================
   §6  Transfer resume (src/src-tauri/src/ssh.rs)

   Upload, upload_recursive_progress 1461-1583 (file branch): with
   resume on, stat the remote file; if its size >= the local size, skip
   the file ("already uploaded").  Otherwise hash the local prefix of
   that size with sha256 and ask the remote for its file hash via
   get_remote_file_hash (utils.rs 54-126: sha256sum first, falling back
   to md5sum).  A 64-char remote hash equal to the local sha256, or a
   32-char remote hash equal to the local md5 of that prefix, continues
   from the remote size; anything else restarts from offset 0.

   Download, download_file_with_progress 1695-1825: with resume on and
   an existing local file shorter than the remote, the file is opened in
   append mode and the copy starts at the local length — no hash of any
   prefix is computed on this path.  The final local content is the
   existing local content followed by the remote bytes from that offset.
   ================================================================ -/

/-- Hash-match condition of the upload resume check: a 64-char remote
hash must equal the local sha256 of the prefix, a 32-char remote hash
must equal the local md5 of the prefix.  `shaOf n` / `md5Of n` are the
local digests of the first `n` bytes, `rh` the remote answer of
`get_remote_file_hash` (strongest digest the remote supports). -/
def hashMatches (rh : Except String (Option String)) (shaOf md5Of : Nat → String)
    (size : Nat) : Bool :=
  match rh with
  | Except.ok (some h) =>
    (h.length == 64 && shaOf size == h) || (h.length == 32 && md5Of size == h)
  | _ => false

/-- The resume-offset decision of the upload file branch.  `none` models
the early "already uploaded" return; `some off` means the transfer
writes starting at offset `off`. -/
def upload_resume_offset (fileSize : Nat) (remoteStat : Except Unit (Option Nat))
    (shaOf md5Of : Nat → String) (rh : Except String (Option String)) : Option Nat :=
  match remoteStat with
  | Except.error _ => some 0
  | Except.ok none => some 0
  | Except.ok (some size) =>
    if fileSize ≤ size then none
    else
      match rh with
      | Except.ok (some h) =>
        if h.length == 64 && shaOf size == h then some size
        else if h.length == 32 then
          if md5Of size == h then some size else some 0
        else some 0
      | _ => some 0

/-- The download with resume, at the level of file contents: returns the
final local file content.  With resume on and an existing local file
shorter than the remote one, the local file is opened for append and the
copy starts at the local length; a local file at least as long as the
remote is left untouched; otherwise the file is created and copied from
offset 0.  No hash is computed anywhere on this path. -/
def download_file_with_progress (resume : Bool) (localContent : Option (List Nat))
    (remote : List Nat) : List Nat :=
  if resume then
    match localContent with
    | some loc =>
      if loc.length < remote.length then loc ++ remote.drop loc.length
      else loc
    | none => remote
  else remote

/-- C3 counterexample: a resumed download onto a local file whose
content `[1]` does not match the remote prefix `[2]` still continues
from the existing length — no prefix hash is computed for downloads —
and the final file `[1, 2]` is not byte-identical to the source
`[2, 2]`, contradicting the claim that a mismatched prefix restarts the
transfer from offset 0. -/
theorem download_resume_skips_hash_check :
    download_file_with_progress true (some [1]) [2, 2] = [1, 2]
    ∧ [1, 2] ≠ [2, 2]
    ∧ [1] ≠ [2] := by
  refine ⟨rfl, by decide, by decide⟩

/-- C3 amended: the hash-verified resume exists only on the upload path.
For an upload with resume on and a remote file strictly shorter than the
local source, the transfer continues from the remote length exactly when
the remote-reported prefix digest (strongest the remote supports: sha256,
falling back to md5) matches the local digest of the same prefix, and
restarts from offset 0 otherwise.  A resumed download continues from the
existing local length whenever the local file is shorter than the remote
file, with no hash verification: its final content is the local prefix
followed by the remote suffix. -/
theorem transfer_resume_amended (fileSize size : Nat)
    (shaOf md5Of : Nat → String) (rh : Except String (Option String)) :
    (size < fileSize →
      upload_resume_offset fileSize (Except.ok (some size)) shaOf md5Of rh =
        some (if hashMatches rh shaOf md5Of size then size else 0))
    ∧ (∀ (loc remote : List Nat), loc.length < remote.length →
      download_file_with_progress true (some loc) remote =
        loc ++ remote.drop loc.length) := by
  constructor
  · intro hlt
    simp only [upload_resume_offset, if_neg (by omega : ¬fileSize ≤ size)]
    match rh with
    | Except.error msg => simp [hashMatches]
    | Except.ok none => simp [hashMatches]
    | Except.ok (some h) =>
      simp only [hashMatches]
      by_cases h64 : (h.length == 64 && shaOf size == h) = true
      · simp [h64]
      · simp only [h64, if_false, Bool.false_or]
        by_cases hl32 : (h.length == 32) = true
        · by_cases hm : (md5Of size == h) = true
          · simp [hl32, hm]
          · simp [hl32, hm]
        · simp [hl32]
  · intro loc remote hlen
    simp [download_file_with_progress, hlen]

theorem transfer_resume_amended_witness :
    (upload_resume_offset 10 (Except.ok (some 4))
        (fun _ => "a") (fun _ => "b") (Except.ok (some "c")) = some 0)
    ∧ download_file_with_progress true (some [7]) [7, 8, 9] = [7, 8, 9] := by
  constructor
  · have h := (transfer_resume_amended 10 4 (fun _ => "a") (fun _ => "b")
      (Except.ok (some "c"))).1 (by omega)
    rw [h]
    decide
  · exact (transfer_resume_amended 10 4 (fun _ => "a") (fun _ => "b")
      (Except.ok (some "c"))).2 [7] [7, 8, 9] (by decide)

/- ================================================================
   §7  Cooperative cancellation (C8)

   exec_command (src/src-tauri/src/ssh/command.rs, 57-77):
     loop { if flag.load() { channel.close();
              return Err("Command cancelled by user") }
            match channel.read(&mut buf) {
              Ok(0) => break, Ok(n) => push chunk,
              Err(WouldBlock) => sleep(10ms), Err(e) => return Err(..) } }
     ... Ok(accumulated output)

   download_file (src/src-tauri/src/ssh/file_ops.rs, 737-775):
     loop { if cancel_flag.load() { status = "cancelled";
              return Err("Download cancelled") }
            match remote.read(&mut buffer) {
              Ok(0) => break, Ok(n) => write n bytes to local file,
              Err(WouldBlock) => sleep(10ms), Err(e) => return Err(..) } }
     ... status = "completed"

   `flag i` is the cancellation flag's value at loop iteration `i`;
   `ev i` is the outcome of the read call of iteration `i`.
   ================================================================ -/

/-- Outcome of one `read` call in the loop. -/
inductive ReadEv where
  | eof
  | chunk : List Nat → ReadEv
  | wouldBlockRead
  | readErr
deriving DecidableEq

/-- Result of `exec_command`: the accumulated output, cancellation, or
an I/O error. -/
inductive ExecOutcome where
  | okOut : List Nat → ExecOutcome
  | cancelled
  | failed
deriving DecidableEq

/-- The read loop of `exec_command`, with fuel (`none` = still looping):
every iteration first polls the cancellation flag, then reads. -/
def exec_command_loop (flag : Nat → Bool) (ev : Nat → ReadEv) :
    Nat → Nat → List Nat → Option ExecOutcome
  | 0, _, _ => none
  | fuel + 1, i, acc =>
    if flag i then some ExecOutcome.cancelled
    else
      match ev i with
      | ReadEv.eof => some (ExecOutcome.okOut acc)
      | ReadEv.chunk s => exec_command_loop flag ev fuel (i + 1) (acc ++ s)
      | ReadEv.wouldBlockRead => exec_command_loop flag ev fuel (i + 1) acc
      | ReadEv.readErr => some ExecOutcome.failed

/-- Result of the `download_file` loop: the bytes written to the local
file on completion, cancellation, or an I/O error. -/
inductive DownloadOutcome where
  | completed : List Nat → DownloadOutcome
  | cancelled
  | failed
deriving DecidableEq

/-- The read/write loop of `download_file`, with fuel: every iteration
first polls the cancellation flag, then reads a chunk and writes it. -/
def download_file_loop (flag : Nat → Bool) (ev : Nat → ReadEv) :
    Nat → Nat → List Nat → Option DownloadOutcome
  | 0, _, _ => none
  | fuel + 1, i, written =>
    if flag i then some DownloadOutcome.cancelled
    else
      match ev i with
      | ReadEv.eof => some (DownloadOutcome.completed written)
      | ReadEv.chunk s => download_file_loop flag ev fuel (i + 1) (written ++ s)
      | ReadEv.wouldBlockRead => download_file_loop flag ev fuel (i + 1) written
      | ReadEv.readErr => some DownloadOutcome.failed

lemma exec_command_loop_ok_flags (flag : Nat → Bool) (ev : Nat → ReadEv) :
    ∀ fuel i acc out, exec_command_loop flag ev fuel i acc = some (ExecOutcome.okOut out) →
      ∃ n, i ≤ n ∧ n < i + fuel ∧ ev n = ReadEv.eof ∧
        ∀ m, i ≤ m → m ≤ n → flag m = false := by
  intro fuel
  induction fuel with
  | zero => intro i acc out h; exact absurd h (by simp [exec_command_loop])
  | succ fuel ih =>
    intro i acc out h
    rw [exec_command_loop] at h
    cases hf : flag i with
    | true => rw [hf] at h; simp at h
    | false =>
      rw [hf] at h
      simp only [Bool.false_eq_true, if_false] at h
      cases hev : ev i with
      | eof =>
        rw [hev] at h
        refine ⟨i, le_refl i, by omega, hev, fun m h1 h2 => ?_⟩
        have : m = i := by omega
        rw [this, hf]
      | chunk s =>
        rw [hev] at h
        obtain ⟨n, h1, h2, h3, h4⟩ := ih (i + 1) (acc ++ s) out h
        refine ⟨n, by omega, by omega, h3, fun m hm1 hm2 => ?_⟩
        rcases Nat.eq_or_lt_of_le hm1 with rfl | hlt
        · exact hf
        · exact h4 m hlt hm2
      | wouldBlockRead =>
        rw [hev] at h
        obtain ⟨n, h1, h2, h3, h4⟩ := ih (i + 1) acc out h
        refine ⟨n, by omega, by omega, h3, fun m hm1 hm2 => ?_⟩
        rcases Nat.eq_or_lt_of_le hm1 with rfl | hlt
        · exact hf
        · exact h4 m hlt hm2
      | readErr => rw [hev] at h; simp at h

lemma download_file_loop_ok_flags (flag : Nat → Bool) (ev : Nat → ReadEv) :
    ∀ fuel i acc out,
      download_file_loop flag ev fuel i acc = some (DownloadOutcome.completed out) →
      ∃ n, i ≤ n ∧ n < i + fuel ∧ ev n = ReadEv.eof ∧
        ∀ m, i ≤ m → m ≤ n → flag m = false := by
  intro fuel
  induction fuel with
  | zero => intro i acc out h; exact absurd h (by simp [download_file_loop])
  | succ fuel ih =>
    intro i acc out h
    rw [download_file_loop] at h
    cases hf : flag i with
    | true => rw [hf] at h; simp at h
    | false =>
      rw [hf] at h
      simp only [Bool.false_eq_true, if_false] at h
      cases hev : ev i with
      | eof =>
        rw [hev] at h
        refine ⟨i, le_refl i, by omega, hev, fun m h1 h2 => ?_⟩
        have : m = i := by omega
        rw [this, hf]
      | chunk s =>
        rw [hev] at h
        obtain ⟨n, h1, h2, h3, h4⟩ := ih (i + 1) (acc ++ s) out h
        refine ⟨n, by omega, by omega, h3, fun m hm1 hm2 => ?_⟩
        rcases Nat.eq_or_lt_of_le hm1 with rfl | hlt
        · exact hf
        · exact h4 m hlt hm2
      | wouldBlockRead =>
        rw [hev] at h
        obtain ⟨n, h1, h2, h3, h4⟩ := ih (i + 1) acc out h
        refine ⟨n, by omega, by omega, h3, fun m hm1 hm2 => ?_⟩
        rcases Nat.eq_or_lt_of_le hm1 with rfl | hlt
        · exact hf
        · exact h4 m hlt hm2
      | readErr => rw [hev] at h; simp at h

/-- C8: the cancellation flag is polled at the start of every iteration
of the exec and download loops.  If the flag is set before any byte has
been read or written (iteration 0), both commands complete with the
Cancelled result.  And whenever either loop ends in success, the stream
was read to EOF with the flag observed false at every polled iteration —
a cancelled run is never reported as a (partial) success. -/
theorem cancellation_polled_every_iteration (flag : Nat → Bool) (ev : Nat → ReadEv) :
    (flag 0 = true → ∀ fuel, 1 ≤ fuel →
      exec_command_loop flag ev fuel 0 [] = some ExecOutcome.cancelled
      ∧ download_file_loop flag ev fuel 0 [] = some DownloadOutcome.cancelled)
    ∧ (∀ fuel out, exec_command_loop flag ev fuel 0 [] = some (ExecOutcome.okOut out) →
        ∃ n, n < fuel ∧ ev n = ReadEv.eof ∧ ∀ m, m ≤ n → flag m = false)
    ∧ (∀ fuel out,
        download_file_loop flag ev fuel 0 [] = some (DownloadOutcome.completed out) →
        ∃ n, n < fuel ∧ ev n = ReadEv.eof ∧ ∀ m, m ≤ n → flag m = false) := by
  refine ⟨?_, ?_, ?_⟩
  · intro hf fuel hfuel
    obtain ⟨fuel', rfl⟩ : ∃ k, fuel = k + 1 := ⟨fuel - 1, by omega⟩
    constructor
    · rw [exec_command_loop, hf]; simp
    · rw [download_file_loop, hf]; simp
  · intro fuel out h
    obtain ⟨n, h1, h2, h3, h4⟩ := exec_command_loop_ok_flags flag ev fuel 0 [] out h
    exact ⟨n, by omega, h3, fun m hm => h4 m (by omega) hm⟩
  · intro fuel out h
    obtain ⟨n, h1, h2, h3, h4⟩ := download_file_loop_ok_flags flag ev fuel 0 [] out h
    exact ⟨n, by omega, h3, fun m hm => h4 m (by omega) hm⟩

/-- A flag already set before the first read. -/
def c8FlagSet : Nat → Bool := fun _ => true

/-- Reads that would deliver data if not cancelled. -/
def c8Events : Nat → ReadEv := fun i =>
  if i = 0 then ReadEv.chunk [1, 2] else ReadEv.eof

theorem cancellation_polled_witness :
    exec_command_loop c8FlagSet c8Events 5 0 [] = some ExecOutcome.cancelled
    ∧ download_file_loop c8FlagSet c8Events 5 0 [] = some DownloadOutcome.cancelled :=
  (cancellation_polled_every_iteration c8FlagSet c8Events).1 rfl 5 (by omega)

/- ================================================================
   §8  Recursive delete (C9)

   rm_recursive (src/src-tauri/src/ssh/file_ops.rs, 493-511; the same
   algorithm appears as rm_recursive_internal in manager.rs, 774-796):

     fn rm_recursive(sftp, path) {
       for (child, stat) in sftp.readdir(path) {  // "." ".." skipped
         if stat.is_dir() { rm_recursive(sftp, child) }
         else { sftp.unlink(child) } }
       sftp.rmdir(path) }

   A directory tree is a mutual inductive (entries / entry lists); the
   function is modelled by the exact sequence of SFTP calls it issues,
   with paths as segment lists.  readdir of a real directory lists each
   child once and sibling names are distinct, captured by `wfTreeB`.
   ================================================================ -/

/-- One SFTP call issued by the recursive delete. -/
inductive SftpOp where
  | unlink : List String → SftpOp
  | rmdir : List String → SftpOp
deriving DecidableEq

def SftpOp.isUnlink : SftpOp → Bool
  | SftpOp.unlink _ => true
  | SftpOp.rmdir _ => false

def SftpOp.isRmdir : SftpOp → Bool
  | SftpOp.unlink _ => false
  | SftpOp.rmdir _ => true

def opPath : SftpOp → List String
  | SftpOp.unlink p => p
  | SftpOp.rmdir p => p

/-- `pathLeB p q`: the path `p` is an initial segment of the path `q`. -/
def pathLeB : List String → List String → Bool
  | [], _ => true
  | _ :: _, [] => false
  | a :: p, b :: q => a == b && pathLeB p q

/-- `pathLtB p q`: `q` lies strictly under the directory `p`. -/
def pathLtB (p q : List String) : Bool :=
  pathLeB p q && decide (p.length < q.length)

lemma pathLeB_refl : ∀ p, pathLeB p p = true := by
  intro p
  induction p with
  | nil => rfl
  | cons a p ih => simp [pathLeB, ih]

lemma pathLeB_append : ∀ p r, pathLeB p (p ++ r) = true := by
  intro p r
  induction p with
  | nil => rfl
  | cons a p ih => simp [pathLeB, ih]

lemma pathLeB_length : ∀ p q, pathLeB p q = true → p.length ≤ q.length := by
  intro p
  induction p with
  | nil => intro q _; simp
  | cons a p ih =>
    intro q h
    cases q with
    | nil => simp [pathLeB] at h
    | cons b q =>
      simp only [pathLeB, Bool.and_eq_true] at h
      have := ih q h.2
      simp only [List.length_cons]
      omega

lemma pathLeB_trans : ∀ p q r, pathLeB p q = true → pathLeB q r = true →
    pathLeB p r = true := by
  intro p
  induction p with
  | nil => intro q r _ _; rfl
  | cons a p ih =>
    intro q r h1 h2
    cases q with
    | nil => simp [pathLeB] at h1
    | cons b q =>
      cases r with
      | nil => simp [pathLeB] at h2
      | cons c r =>
        simp only [pathLeB, Bool.and_eq_true, beq_iff_eq] at h1 h2 ⊢
        exact ⟨h1.1.trans h2.1, ih q r h1.2 h2.2⟩

lemma pathLeB_eq_of_length : ∀ p p' q, pathLeB p q = true → pathLeB p' q = true →
    p.length = p'.length → p = p' := by
  intro p
  induction p with
  | nil =>
    intro p' q _ _ hlen
    cases p' with
    | nil => rfl
    | cons b p' => simp at hlen
  | cons a p ih =>
    intro p' q h1 h2 hlen
    cases p' with
    | nil => simp at hlen
    | cons b p' =>
      cases q with
      | nil => simp [pathLeB] at h1
      | cons c q =>
        simp only [pathLeB, Bool.and_eq_true, beq_iff_eq] at h1 h2
        simp only [List.length_cons, Nat.add_right_cancel_iff] at hlen
        rw [List.cons.injEq]
        exact ⟨h1.1.trans h2.1.symm, ih p' q h1.2 h2.2 hlen⟩

lemma pathLtB_false_of_le (q r : List String) (h : r.length ≤ q.length) :
    pathLtB q r = false := by
  simp only [pathLtB, Bool.and_eq_false_iff]
  right
  simpa using by omega

mutual
inductive FsTree where
  | file : String → FsTree
  | dir : String → FsChildren → FsTree
inductive FsChildren where
  | nil : FsChildren
  | cons : FsTree → FsChildren → FsChildren
end

def rootName : FsTree → String
  | FsTree.file n => n
  | FsTree.dir n _ => n

mutual
/-- The SFTP calls issued for one readdir entry at parent path `p`: a
file child is unlinked; a directory child is handled by the recursive
call (whose trace ends by removing the directory itself). -/
def rmEntry : List String → FsTree → List SftpOp
  | p, FsTree.file n => [SftpOp.unlink (p ++ [n])]
  | p, FsTree.dir n ch => rmChildren (p ++ [n]) ch ++ [SftpOp.rmdir (p ++ [n])]
/-- The SFTP calls issued by the readdir loop over the entries of the
directory at path `p`. -/
def rmChildren : List String → FsChildren → List SftpOp
  | _, FsChildren.nil => []
  | p, FsChildren.cons c cs => rmEntry p c ++ rmChildren p cs
end

/-- `rm_recursive`, as the sequence of SFTP calls it issues when invoked
on a directory tree `t` whose parent path is `p`. -/
def rm_recursive (p : List String) (t : FsTree) : List SftpOp :=
  rmEntry p t

mutual
def numFiles : FsTree → Nat
  | FsTree.file _ => 1
  | FsTree.dir _ ch => numFilesC ch
def numFilesC : FsChildren → Nat
  | FsChildren.nil => 0
  | FsChildren.cons c cs => numFiles c + numFilesC cs
end

mutual
def numDirs : FsTree → Nat
  | FsTree.file _ => 0
  | FsTree.dir _ ch => 1 + numDirsC ch
def numDirsC : FsChildren → Nat
  | FsChildren.nil => 0
  | FsChildren.cons c cs => numDirs c + numDirsC cs
end

def namesC : FsChildren → List String
  | FsChildren.nil => []
  | FsChildren.cons c cs => rootName c :: namesC cs

def namesHasB (m : String) : List String → Bool
  | [] => false
  | a :: l => (a == m) || namesHasB m l

/- Well-formedness of a real directory listing: sibling names are
pairwise distinct at every level. -/
mutual
def wfTreeB : FsTree → Bool
  | FsTree.file _ => true
  | FsTree.dir _ ch => wfChildrenB ch
def wfChildrenB : FsChildren → Bool
  | FsChildren.nil => true
  | FsChildren.cons c cs =>
    wfTreeB c && !namesHasB (rootName c) (namesC cs) && wfChildrenB cs
end

lemma namesHasB_of_mem : ∀ (l : List String) (m : String), m ∈ l →
    namesHasB m l = true := by
  intro l
  induction l with
  | nil => intro m h; simp at h
  | cons a l ih =>
    intro m h
    rcases List.mem_cons.mp h with rfl | h
    · simp [namesHasB]
    · simp [namesHasB, ih m h]

mutual
theorem rmEntry_count_unlink : ∀ p t,
    (rmEntry p t).countP SftpOp.isUnlink = numFiles t
  | p, FsTree.file n => by
    simp [rmEntry, numFiles, List.countP_cons, SftpOp.isUnlink]
  | p, FsTree.dir n ch => by
    simp [rmEntry, numFiles, List.countP_append, List.countP_cons, SftpOp.isUnlink,
      rmChildren_count_unlink (p ++ [n]) ch]
theorem rmChildren_count_unlink : ∀ p ch,
    (rmChildren p ch).countP SftpOp.isUnlink = numFilesC ch
  | _, FsChildren.nil => by simp [rmChildren, numFilesC]
  | p, FsChildren.cons c cs => by
    simp [rmChildren, numFilesC, List.countP_append,
      rmEntry_count_unlink p c, rmChildren_count_unlink p cs]
end

mutual
theorem rmEntry_count_rmdir : ∀ p t,
    (rmEntry p t).countP SftpOp.isRmdir = numDirs t
  | p, FsTree.file n => by
    simp [rmEntry, numDirs, List.countP_cons, SftpOp.isRmdir]
  | p, FsTree.dir n ch => by
    simp [rmEntry, numDirs, List.countP_append, List.countP_cons, SftpOp.isRmdir,
      rmChildren_count_rmdir (p ++ [n]) ch]
    omega
theorem rmChildren_count_rmdir : ∀ p ch,
    (rmChildren p ch).countP SftpOp.isRmdir = numDirsC ch
  | _, FsChildren.nil => by simp [rmChildren, numDirsC]
  | p, FsChildren.cons c cs => by
    simp [rmChildren, numDirsC, List.countP_append,
      rmEntry_count_rmdir p c, rmChildren_count_rmdir p cs]
end

lemma append_split {α : Type} : ∀ (A B l₁ : List α) (x : α) (l₂ : List α),
    A ++ B = l₁ ++ x :: l₂ →
    (∃ c₂, A = l₁ ++ x :: c₂ ∧ l₂ = c₂ ++ B) ∨
    (∃ a, l₁ = A ++ a ∧ B = a ++ x :: l₂) := by
  intro A B l₁
  induction l₁ generalizing A with
  | nil =>
    intro x l₂ heq
    cases A with
    | nil =>
      right
      exact ⟨[], rfl, by simpa using heq⟩
    | cons y A =>
      left
      simp only [List.cons_append, List.nil_append, List.cons.injEq] at heq
      exact ⟨A, by simp [heq.1], heq.2.symm⟩
  | cons z l₁ ih =>
    intro x l₂ heq
    cases A with
    | nil =>
      right
      refine ⟨z :: l₁, rfl, by simpa using heq⟩
    | cons y A =>
      simp only [List.cons_append, List.cons.injEq] at heq
      obtain ⟨rfl, heq2⟩ := heq
      rcases ih A x l₂ heq2 with ⟨c₂, hA, hl₂⟩ | ⟨a, hl₁, hB⟩
      · left
        exact ⟨c₂, by simp [hA], hl₂⟩
      · right
        exact ⟨a, by simp [hl₁], hB⟩

mutual
theorem rmEntry_opPath : ∀ p t op, op ∈ rmEntry p t →
    pathLeB (p ++ [rootName t]) (opPath op) = true
  | p, FsTree.file n, op, hop => by
    simp only [rmEntry, List.mem_singleton] at hop
    subst hop
    simp [rootName, opPath, pathLeB_refl]
  | p, FsTree.dir n ch, op, hop => by
    simp only [rmEntry, List.mem_append, List.mem_singleton] at hop
    rcases hop with hop | hop
    · obtain ⟨m, _, hle⟩ := rmChildren_opPath (p ++ [n]) ch op hop
      simp only [rootName]
      exact pathLeB_trans _ _ _ (pathLeB_append (p ++ [n]) [m]) hle
    · subst hop
      simp [rootName, opPath, pathLeB_refl]
theorem rmChildren_opPath : ∀ p ch op, op ∈ rmChildren p ch →
    ∃ m, m ∈ namesC ch ∧ pathLeB (p ++ [m]) (opPath op) = true
  | _, FsChildren.nil, op, hop => by simp [rmChildren] at hop
  | p, FsChildren.cons c cs, op, hop => by
    simp only [rmChildren, List.mem_append] at hop
    rcases hop with hop | hop
    · exact ⟨rootName c, by simp [namesC], rmEntry_opPath p c op hop⟩
    · obtain ⟨m, hm, hle⟩ := rmChildren_opPath p cs op hop
      exact ⟨m, by simp [namesC, hm], hle⟩
end

mutual
theorem rmEntry_order : ∀ p t, wfTreeB t = true →
    ∀ l₁ q l₂, rmEntry p t = l₁ ++ SftpOp.rmdir q :: l₂ →
    pathLeB (p ++ [rootName t]) q = true
    ∧ ∀ op ∈ l₂, pathLtB q (opPath op) = false
  | p, FsTree.file n, _, l₁, q, l₂, heq => by
    exfalso
    cases l₁ with
    | nil => simp [rmEntry] at heq
    | cons y l₁ =>
      simp only [rmEntry, List.cons_append, List.cons.injEq] at heq
      have := congrArg List.length heq.2
      simp at this
      omega
  | p, FsTree.dir n ch, hwf, l₁, q, l₂, heq => by
    have hwf' : wfChildrenB ch = true := hwf
    rw [rmEntry] at heq
    rcases append_split _ _ _ _ _ heq with ⟨c₂, hA, hl₂⟩ | ⟨a, hl₁, hB⟩
    · obtain ⟨⟨m, hm, hq⟩, hops⟩ := rmChildren_order (p ++ [n]) ch hwf' l₁ q c₂ hA
      refine ⟨?_, ?_⟩
      · simp only [rootName]
        exact pathLeB_trans _ _ _ (pathLeB_append (p ++ [n]) [m]) hq
      intro op hop
      rw [hl₂] at hop
      rcases List.mem_append.mp hop with hop | hop
      · exact hops op hop
      · simp only [List.mem_singleton] at hop
        subst hop
        simp only [opPath]
        apply pathLtB_false_of_le
        have := pathLeB_length _ _ hq
        simp only [List.length_append, List.length_cons, List.length_nil] at this ⊢
        omega
    · cases a with
      | nil =>
        simp only [List.nil_append, List.cons.injEq] at hB
        obtain ⟨hq, hl₂⟩ := hB
        have hq' : q = p ++ [n] := (SftpOp.rmdir.injEq .. ▸ hq).symm ▸ rfl
        refine ⟨?_, ?_⟩
        · rw [hq']
          simp [rootName, pathLeB_refl]
        · intro op hop
          rw [← hl₂] at hop
          simp at hop
      | cons y a =>
        exfalso
        simp only [List.cons_append, List.cons.injEq] at hB
        have := congrArg List.length hB.2
        simp at this
        omega
theorem rmChildren_order : ∀ p ch, wfChildrenB ch = true →
    ∀ l₁ q l₂, rmChildren p ch = l₁ ++ SftpOp.rmdir q :: l₂ →
    (∃ m, m ∈ namesC ch ∧ pathLeB (p ++ [m]) q = true)
    ∧ ∀ op ∈ l₂, pathLtB q (opPath op) = false
  | _, FsChildren.nil, _, l₁, q, l₂, heq => by
    exfalso
    have := congrArg List.length heq
    simp [rmChildren] at this
    omega
  | p, FsChildren.cons c cs, hwf, l₁, q, l₂, heq => by
    have hwf3 : wfTreeB c = true ∧ namesHasB (rootName c) (namesC cs) = false
        ∧ wfChildrenB cs = true := by
      have h := hwf
      rw [wfChildrenB] at h
      simp only [Bool.and_eq_true, Bool.not_eq_true'] at h
      exact ⟨h.1.1, h.1.2, h.2⟩
    rw [rmChildren] at heq
    rcases append_split _ _ _ _ _ heq with ⟨c₂, hA, hl₂⟩ | ⟨a, hl₁, hB⟩
    · obtain ⟨hq, hops⟩ := rmEntry_order p c hwf3.1 l₁ q c₂ hA
      refine ⟨⟨rootName c, by simp [namesC], hq⟩, ?_⟩
      intro op hop
      rw [hl₂] at hop
      rcases List.mem_append.mp hop with hop | hop
      · exact hops op hop
      · cases hlt : pathLtB q (opPath op) with
        | false => rfl
        | true =>
          exfalso
          simp only [pathLtB, Bool.and_eq_true, decide_eq_true_eq] at hlt
          obtain ⟨m', hm', hle'⟩ := rmChildren_opPath p cs op hop
          have h1 : pathLeB (p ++ [rootName c]) (opPath op) = true :=
            pathLeB_trans _ _ _ hq hlt.1
          have h2 : p ++ [rootName c] = p ++ [m'] :=
            pathLeB_eq_of_length _ _ _ h1 hle' (by simp)
          have h3 : rootName c = m' := by simpa using h2
          have := namesHasB_of_mem (namesC cs) (rootName c) (h3 ▸ hm')
          rw [this] at hwf3
          simp at hwf3
    · obtain ⟨⟨m, hm, hq⟩, hops⟩ := rmChildren_order p cs hwf3.2.2 a q l₂ hB
      exact ⟨⟨m, by simp [namesC, hm], hq⟩, hops⟩
end

/-- C9: recursive delete of a directory tree (distinct sibling names)
issues exactly `numFiles t` unlink calls and exactly `numDirs t` rmdir
calls — for a tree containing N files and M directories below the root,
that is N unlinks and M+1 rmdirs, the root's own rmdir included — and
the walk is depth-first: once a directory `q` is removed, no later call
touches any path strictly below `q`, i.e. every directory is removed
only after all of its children have been deleted. -/
theorem rm_recursive_spec (p : List String) (n : String) (ch : FsChildren)
    (hwf : wfTreeB (FsTree.dir n ch) = true) :
    ((rm_recursive p (FsTree.dir n ch)).countP SftpOp.isUnlink
        = numFiles (FsTree.dir n ch)
    ∧ (rm_recursive p (FsTree.dir n ch)).countP SftpOp.isRmdir
        = numDirs (FsTree.dir n ch))
    ∧ ∀ l₁ q l₂, rm_recursive p (FsTree.dir n ch) = l₁ ++ SftpOp.rmdir q :: l₂ →
        ∀ op ∈ l₂, pathLtB q (opPath op) = false := by
  refine ⟨⟨rmEntry_count_unlink p _, rmEntry_count_rmdir p _⟩, ?_⟩
  intro l₁ q l₂ heq op hop
  exact (rmEntry_order p _ hwf l₁ q l₂ heq).2 op hop

/-- The entries of the witness tree: a file "x" and an empty
subdirectory "b" inside the root "a". -/
def c9Entries : FsChildren :=
  FsChildren.cons (FsTree.file "x")
    (FsChildren.cons (FsTree.dir "b" FsChildren.nil) FsChildren.nil)

theorem rm_recursive_spec_witness :
    ((rm_recursive [] (FsTree.dir "a" c9Entries)).countP SftpOp.isUnlink = 1
    ∧ (rm_recursive [] (FsTree.dir "a" c9Entries)).countP SftpOp.isRmdir = 2)
    ∧ pathLtB ["a", "b"] ["a"] = false := by
  have h := rm_recursive_spec [] "a" c9Entries (by decide)
  refine ⟨⟨h.1.1.trans (by decide), h.1.2.trans (by decide)⟩, ?_⟩
  exact h.2 [SftpOp.unlink ["a", "x"]] ["a", "b"] [SftpOp.rmdir ["a"]] rfl
    (SftpOp.rmdir ["a"]) (by simp)
